import Mathlib

/- Verification of the tutorial-code validator scripts
   (check_tutorial_syntax.py and test_tutorial_code.py).

   Strings are modelled as `List Char`; Python's substring test `pat in s`
   is `containsSub`, `str.replace` is `replaceSub`, and the regex scan
   for fenced code regions is `findCodeBlocks`.  The external toolchain
   invocation is modelled as an oracle value of type `ProcResult`, and
   the fallible sandbox construction as a `BuildResult`; an uncaught
   Python exception is an `Except.error`. -/

namespace Ryht

/-- Boolean test that `pat` is an initial segment of `s`. -/
def leadsWith : List Char → List Char → Bool
  | [], _ => true
  | _ :: _, [] => false
  | c :: p, d :: s => c == d && leadsWith p s

/-- Boolean substring test, Python's `pat in s`. -/
def containsSub (pat : List Char) : List Char → Bool
  | [] => leadsWith pat []
  | c :: t => leadsWith pat (c :: t) || containsSub pat t

/-- Split `s` at the first occurrence of `pat`: returns the part before
the occurrence and the part after it. -/
def splitOnSub (pat : List Char) : List Char → Option (List Char × List Char)
  | [] => if leadsWith pat [] then some ([], []) else none
  | c :: t =>
    if leadsWith pat (c :: t) then some ([], t.drop (pat.length - 1))
    else (splitOnSub pat t).map fun q => (c :: q.1, q.2)

/-- Worker for `replaceSub`; the `Nat` argument counts characters of a
matched occurrence still to be skipped. -/
def replaceAux (pat rep : List Char) : List Char → Nat → List Char
  | [], _ => []
  | c :: t, 0 =>
    if leadsWith pat (c :: t) then rep ++ replaceAux pat rep t (pat.length - 1)
    else c :: replaceAux pat rep t 0
  | _ :: t, k + 1 => replaceAux pat rep t k

/-- Python's `s.replace(pat, rep)`: replace every non-overlapping
occurrence of `pat`, scanning left to right. -/
def replaceSub (pat rep s : List Char) : List Char :=
  replaceAux pat rep s 0

/-- Number of positions of `s` at which `pat` occurs. -/
def countSub (pat : List Char) : List Char → Nat
  | [] => if leadsWith pat [] then 1 else 0
  | c :: t => (if leadsWith pat (c :: t) then 1 else 0) + countSub pat t

/-- Split a text into its lines (separator `'\n'`). -/
def splitLines : List Char → List (List Char)
  | [] => [[]]
  | c :: t =>
    if c == '\n' then [] :: splitLines t
    else
      match splitLines t with
      | [] => [[c]]
      | l :: ls => (c :: l) :: ls

/-- Fence opener of the regex `r'```rust\n(.*?)\n```'`. -/
def fenceOpener : List Char := "```rust\n".data

/-- Fence closer of the regex `r'```rust\n(.*?)\n```'`. -/
def fenceCloser : List Char := "\n```".data

/-- Relevance signal: full async entry signature. -/
def asyncMainSig : List Char :=
  "async fn main() -> Result<(), Box<dyn std::error::Error>> \x7b".data

/-- Relevance signal: scoped import of the product namespace. -/
def sdkImportSig : List Char := "use claude_sdk_rs::\x7b".data

/-- Relevance signal and entry marker: the tokio attribute. -/
def tokioMainSig : List Char := "#[tokio::main]".data

/-- Entry marker checked by `make_code_testable`. -/
def fnMainSig : List Char := "fn main()".data

/-- Defining-construct signal `'async fn'`. -/
def asyncFnSig : List Char := "async fn".data

/-- Defining-construct signal `'fn '`. -/
def fnSpace : List Char := "fn ".data

/-- Defining-construct signal `'impl '`. -/
def implSpace : List Char := "impl ".data

/-- Defining-construct signal `'struct '` (syntax script only). -/
def structSpace : List Char := "struct ".data

/-- Published namespace reference rewritten by the syntax script. -/
def sdkNs : List Char := "use claude_sdk_rs::".data

/-- Local in-sandbox namespace reference. -/
def crateNs : List Char := "use crate::".data

/-- The three fragments of `extract_rust_code_blocks`. -/
def relevantFragments : List (List Char) :=
  [asyncMainSig, sdkImportSig, tokioMainSig]

/-- The relevance filter applied to a matched block. -/
def isRelevantBlock (code : List Char) : Bool :=
  relevantFragments.any fun f => containsSub f code

/-- Fuel-indexed scan for `re.findall(r'```rust\n(.*?)\n```', content, re.DOTALL)`:
find the next fence opener, then the next closer after it, emit the text
between, and resume after the closer. -/
def findCBAux : Nat → List Char → List (List Char)
  | 0, _ => []
  | fuel + 1, content =>
    match splitOnSub fenceOpener content with
    | none => []
    | some (_, rest) =>
      match splitOnSub fenceCloser rest with
      | none => []
      | some (code, rest2) => code :: findCBAux fuel rest2

/-- All raw texts matched by the code-block regex, in document order. -/
def findCodeBlocks (content : List Char) : List (List Char) :=
  findCBAux content.length content

/-- `extract_rust_code_blocks` (identical in both scripts): enumerate all
regex matches and keep those containing a relevance fragment, paired with
their 0-based ordinal among all matches. -/
def extract_rust_code_blocks (content : List Char) : List (Nat × List Char) :=
  ((findCodeBlocks content).enum).filter fun p => isRelevantBlock p.2

/-- The same extraction, as written in test_tutorial_code.py. -/
def extract_rust_code_blocks_full (content : List Char) : List (Nat × List Char) :=
  ((findCodeBlocks content).enum).filter fun p => isRelevantBlock p.2

/-- Text appended after a declaration-only block by `make_code_testable`
(both scripts use the same text). -/
def declTail : List Char :=
  "\n\n#[tokio::main]\nasync fn main() -> Result<(), Box<dyn std::error::Error>> \x7b\n    println!(\"Code compiles successfully!\");\n    Ok(())\n\x7d\n".data

/-- Text appended after a definitions-only block by `make_code_testable`
(both scripts use the same text). -/
def funcTail : List Char :=
  "\n\n#[tokio::main]\nasync fn main() -> Result<(), Box<dyn std::error::Error>> \x7b\n    println!(\"Functions compile successfully!\");\n    Ok(())\n\x7d\n".data

/-- `make_code_testable` of check_tutorial_syntax.py: rewrite the published
namespace to the crate namespace, then pass through complete programs,
wrap declaration-only text, and append an entry point otherwise. -/
def make_code_testable_syntax_mode (code : List Char) : List Char :=
  let c := replaceSub sdkNs crateNs code
  if containsSub tokioMainSig c || containsSub fnMainSig c then c
  else if !(containsSub asyncFnSig c || containsSub fnSpace c ||
            containsSub implSpace c || containsSub structSpace c) then
    '\n' :: (c ++ declTail)
  else
    '\n' :: (c ++ funcTail)

/-- `make_code_testable` of test_tutorial_code.py: no namespace rewrite and
no `'struct '` check, otherwise the same classification. -/
def make_code_testable_full (code : List Char) : List Char :=
  if containsSub tokioMainSig code || containsSub fnMainSig code then code
  else if !(containsSub asyncFnSig code || containsSub fnSpace code ||
            containsSub implSpace code) then
    '\n' :: (code ++ declTail)
  else
    '\n' :: (code ++ funcTail)

/-- Outcome of building the per-block sandbox (mkdir and the writes of
Cargo.toml, lib.rs, main.rs); `err` is a raised exception's description. -/
inductive BuildResult where
  | ok : BuildResult
  | err : List Char → BuildResult
deriving DecidableEq

/-- Outcome of the external `cargo check --quiet` invocation: a completed
process with exit status, stdout and stderr; a wall-clock timeout; or a
failure to start the invocation. -/
inductive ProcResult where
  | completed : Int → List Char → List Char → ProcResult
  | timeout : ProcResult
  | startError : List Char → ProcResult
deriving DecidableEq

/-- The `try` block of `check_syntax_block`: map the invocation outcome to a
(passed, diagnostic) pair. -/
def check_syntax_verdict : ProcResult → Bool × List Char
  | .completed rc _ stderr => if rc == 0 then (true, "OK".data) else (false, stderr)
  | .timeout => (false, "Syntax check timeout".data)
  | .startError e => (false, "Error: ".data ++ e)

/-- The `try` block of `test_code_block`: same mapping with the
full-compile timeout message. -/
def test_code_block_verdict : ProcResult → Bool × List Char
  | .completed rc _ stderr => if rc == 0 then (true, "OK".data) else (false, stderr)
  | .timeout => (false, "Compilation timeout".data)
  | .startError e => (false, "Error: ".data ++ e)

/-- `check_syntax_block`: the sandbox writes happen before the `try`, so a build
exception propagates; otherwise the verdict of the single invocation. -/
def check_syntax_block (build : BuildResult) (res : ProcResult) :
    Except (List Char) (Bool × List Char) :=
  match build with
  | .err e => .error e
  | .ok => .ok (check_syntax_verdict res)

/-- `test_code_block`: same structure as `check_syntax_block` in the
full-compile script. -/
def test_code_block (build : BuildResult) (res : ProcResult) :
    Except (List Char) (Bool × List Char) :=
  match build with
  | .err e => .error e
  | .ok => .ok (test_code_block_verdict res)

/-- The `timeout=15` argument of `subprocess.run` in check_tutorial_syntax.py. -/
def check_syntax_timeout_secs : Nat := 15

/-- The `timeout=30` argument of `subprocess.run` in test_tutorial_code.py. -/
def test_code_block_timeout_secs : Nat := 30

/-- The per-block loop of `check_tutorial_file`: check each block, fold
the successes, and let an uncaught exception abort the loop. -/
def runBlocks (check : BuildResult → ProcResult → Except (List Char) (Bool × List Char)) :
    List (BuildResult × ProcResult) → Except (List Char) Bool
  | [] => .ok true
  | (b, r) :: rest =>
    match check b r with
    | .error e => .error e
    | .ok result =>
      match runBlocks check rest with
      | .error e => .error e
      | .ok restAll => .ok (result.1 && restAll)

/-- `check_tutorial_file`: extract the relevant blocks of a document and
check each one, consuming exactly one oracle outcome per block ordinal. -/
def check_tutorial_file (oracle : Nat → BuildResult × ProcResult) (content : List Char) :
    Except (List Char) Bool :=
  runBlocks check_syntax_block ((extract_rust_code_blocks content).map fun p => oracle p.1)

/-- The per-document loop of `main`. -/
def runDocs (oracle : Nat → Nat → BuildResult × ProcResult) :
    List (Nat × List Char) → Except (List Char) Bool
  | [] => .ok true
  | (di, content) :: rest =>
    match check_tutorial_file (oracle di) content with
    | .error e => .error e
    | .ok p =>
      match runDocs oracle rest with
      | .error e => .error e
      | .ok restAll => .ok (p && restAll)

/-- `main` of check_tutorial_syntax.py: exit 1 when the tutorials root is
missing, exit 1 when no tutorial files are found, otherwise exit 0
exactly when every document passed. -/
def tutorialMain (rootExists : Bool) (docs : List (List Char))
    (oracle : Nat → Nat → BuildResult × ProcResult) : Except (List Char) Nat :=
  if rootExists = false then .ok 1
  else if docs.isEmpty then .ok 1
  else (runDocs oracle docs.enum).map fun allPassed => if allPassed then 0 else 1

/-- A block passes when the verdict of its single invocation is positive. -/
def blockPasses (oracle : Nat → BuildResult × ProcResult) (ord : Nat) : Bool :=
  (check_syntax_verdict (oracle ord).2).1

/-- A document passes when every relevant block within it passes. -/
def docPasses (oracle : Nat → BuildResult × ProcResult) (content : List Char) : Bool :=
  (extract_rust_code_blocks content).all fun p => blockPasses oracle p.1

/-- A declaration-only block referencing the published namespace. -/
def sdkOnlyBlock : List Char := "use claude_sdk_rs::\x7bClient\x7d;".data

/-- The document of end-to-end scenario A of the specification. -/
def scenarioADoc : List Char := "```rust\nfn helper() \x7b\x7d\n```".data

/-- `leadsWith` succeeds exactly on extensions of the pattern. -/
theorem leadsWith_iff (p : List Char) : ∀ s, leadsWith p s = true ↔ ∃ t, s = p ++ t := by
  induction p with
  | nil =>
    intro s
    simp [leadsWith]
  | cons c p ih =>
    intro s
    cases s with
    | nil => simp [leadsWith]
    | cons d t =>
      simp only [leadsWith, Bool.and_eq_true, beq_iff_eq]
      constructor
      · rintro ⟨rfl, h⟩
        obtain ⟨u, rfl⟩ := (ih t).mp h
        exact ⟨u, rfl⟩
      · rintro ⟨u, hu⟩
        rw [List.cons_append] at hu
        injection hu with h1 h2
        exact ⟨h1.symm, (ih t).mpr ⟨u, h2⟩⟩

/-- `containsSub` succeeds exactly when the pattern occurs somewhere. -/
theorem containsSub_iff (pat : List Char) : ∀ s, containsSub pat s = true ↔ ∃ a b, s = a ++ pat ++ b := by
  intro s
  induction s with
  | nil =>
    simp only [containsSub, leadsWith_iff]
    constructor
    · rintro ⟨t, ht⟩
      exact ⟨[], t, ht⟩
    · rintro ⟨a, b, h⟩
      cases a with
      | nil => exact ⟨b, by simpa using h⟩
      | cons x a' => simp at h
  | cons c t ih =>
    simp only [containsSub, Bool.or_eq_true, leadsWith_iff, ih]
    constructor
    · rintro (⟨u, hu⟩ | ⟨a, b, hab⟩)
      · exact ⟨[], u, by simpa using hu⟩
      · exact ⟨c :: a, b, by simp [hab]⟩
    · rintro ⟨a, b, h⟩
      cases a with
      | nil => exact Or.inl ⟨b, by simpa using h⟩
      | cons x a' =>
        rw [List.cons_append, List.cons_append] at h
        injection h with h1 h2
        exact Or.inr ⟨a', b, h2⟩

/-- An occurrence in the tail is an occurrence. -/
theorem containsSub_cons_of (pat : List Char) (c : Char) (t : List Char)
    (h : containsSub pat t = true) : containsSub pat (c :: t) = true := by
  simp [containsSub, h]

/-- An occurrence in the right part of an append is an occurrence. -/
theorem containsSub_append_left (pat a b : List Char) (h : containsSub pat b = true) :
    containsSub pat (a ++ b) = true := by
  obtain ⟨x, y, rfl⟩ := (containsSub_iff pat b).mp h
  exact (containsSub_iff pat _).mpr ⟨a ++ x, y, by simp⟩

/-- A list occurs in itself behind one extra character. -/
theorem containsSub_here (x : List Char) (c : Char) (t : List Char) :
    containsSub x (c :: (x ++ t)) = true :=
  (containsSub_iff x _).mpr ⟨[c], t, by simp⟩

/-- Dropping the length of the left summand of an append yields the right. -/
theorem drop_len_append (x y : List Char) : (x ++ y).drop x.length = y := by
  induction x with
  | nil => rfl
  | cons c t ih =>
    simp only [List.cons_append, List.length_cons, List.drop_succ_cons]
    exact ih

/-- A successful `splitOnSub` decomposes its input around the pattern. -/
theorem splitOnSub_some (pat : List Char) (hp : pat ≠ []) :
    ∀ s a b, splitOnSub pat s = some (a, b) → s = a ++ pat ++ b := by
  obtain ⟨p, pt, rfl⟩ : ∃ p pt, pat = p :: pt := by
    cases pat with
    | nil => exact absurd rfl hp
    | cons p pt => exact ⟨p, pt, rfl⟩
  intro s
  induction s with
  | nil =>
    intro a b h
    simp [splitOnSub, leadsWith] at h
  | cons c t ih =>
    intro a b h
    by_cases hl : leadsWith (p :: pt) (c :: t) = true
    · simp only [splitOnSub, if_pos hl] at h
      obtain ⟨u, hu⟩ := (leadsWith_iff (p :: pt) (c :: t)).mp hl
      injection h with h'
      injection h' with ha hb
      subst ha
      rw [List.cons_append] at hu
      injection hu with hc ht
      subst hc
      subst ht
      simp only [List.length_cons, Nat.add_sub_cancel, drop_len_append] at hb
      subst hb
      simp
    · simp only [splitOnSub, if_neg hl] at h
      cases hsp : splitOnSub (p :: pt) t with
      | none => rw [hsp] at h; simp at h
      | some q =>
        rw [hsp] at h
        obtain ⟨a', b'⟩ := q
        simp only [Option.map_some'] at h
        injection h with h'
        injection h' with ha hb
        subst ha
        subst hb
        rw [ih a' b' hsp]
        simp

/-- `splitOnSub` fails exactly when the pattern does not occur. -/
theorem splitOnSub_none_iff (pat : List Char) (hp : pat ≠ []) :
    ∀ s, splitOnSub pat s = none ↔ containsSub pat s = false := by
  obtain ⟨p, pt, rfl⟩ : ∃ p pt, pat = p :: pt := by
    cases pat with
    | nil => exact absurd rfl hp
    | cons p pt => exact ⟨p, pt, rfl⟩
  intro s
  induction s with
  | nil => simp [splitOnSub, containsSub, leadsWith]
  | cons c t ih =>
    by_cases hl : leadsWith (p :: pt) (c :: t) = true
    · simp [splitOnSub, containsSub, if_pos hl, hl]
    · have hl' : leadsWith (p :: pt) (c :: t) = false := by
        cases hx : leadsWith (p :: pt) (c :: t) with
        | false => rfl
        | true => exact absurd hx hl
      simp only [splitOnSub, if_neg hl, containsSub, hl', Bool.false_or]
      cases hsp : splitOnSub (p :: pt) t with
      | none => simpa [hsp] using (ih.mp hsp)
      | some q =>
        simp only [hsp, Option.map_some']
        constructor
        · intro h
          exact absurd h (by simp)
        · intro h
          rw [← ih] at h
          rw [hsp] at h
          exact absurd h (by simp)

/-- `splitOnSub` finds the earliest decomposition: if `pat` occurs at
position `a.length` and at no earlier position, the split is at `a`. -/
theorem splitOnSub_first (pat : List Char) (hp : pat ≠ []) :
    ∀ a s b, s = a ++ pat ++ b →
      (∀ i, i < a.length → leadsWith pat (s.drop i) = false) →
      splitOnSub pat s = some (a, b) := by
  obtain ⟨p, pt, rfl⟩ : ∃ p pt, pat = p :: pt := by
    cases pat with
    | nil => exact absurd rfl hp
    | cons p pt => exact ⟨p, pt, rfl⟩
  intro a
  induction a with
  | nil =>
    intro s b hs _
    have hs' : s = p :: (pt ++ b) := by simpa using hs
    subst hs'
    have hl : leadsWith (p :: pt) (p :: (pt ++ b)) = true :=
      (leadsWith_iff (p :: pt) _).mpr ⟨b, by simp⟩
    simp [splitOnSub, if_pos hl, drop_len_append]
  | cons x a' ih =>
    intro s b hs hmin
    have hsx : s = x :: (a' ++ (p :: pt) ++ b) := by rw [hs]; simp
    subst hsx
    have h0 : leadsWith (p :: pt) (x :: (a' ++ (p :: pt) ++ b)) = false := by
      have h := hmin 0 (by simp)
      simpa using h
    have h0' : ¬ leadsWith (p :: pt) (x :: (a' ++ (p :: pt) ++ b)) = true := by
      rw [h0]
      exact Bool.false_ne_true
    have hmin' : ∀ i, i < a'.length →
        leadsWith (p :: pt) ((a' ++ (p :: pt) ++ b).drop i) = false := by
      intro i hi
      have h := hmin (i + 1) (by simp only [List.length_cons]; omega)
      simpa using h
    have hrec := ih (a' ++ (p :: pt) ++ b) b rfl hmin'
    simp only [splitOnSub, if_neg h0', hrec, Option.map_some']

/-- The fence patterns are nonempty. -/
theorem fenceOpener_ne : fenceOpener ≠ [] := by decide

/-- The fence closer is nonempty. -/
theorem fenceCloser_ne : fenceCloser ≠ [] := by decide

/-- The block scan yields nothing on the empty document. -/
theorem findCBAux_nil (f : Nat) : findCBAux f [] = [] := by
  cases f with
  | zero => rfl
  | succ f => simp [findCBAux, show splitOnSub fenceOpener [] = none from rfl]

/-- Any fuel at least the document length gives the same block scan. -/
theorem findCBAux_congr : ∀ f g content, content.length ≤ f → content.length ≤ g →
    findCBAux f content = findCBAux g content := by
  intro f
  induction f with
  | zero =>
    intro g content hf _
    have : content = [] := List.eq_nil_of_length_eq_zero (Nat.le_zero.mp hf)
    subst this
    rw [findCBAux_nil, findCBAux_nil]
  | succ f ih =>
    intro g content hf hg
    cases g with
    | zero =>
      have : content = [] := List.eq_nil_of_length_eq_zero (Nat.le_zero.mp hg)
      subst this
      rw [findCBAux_nil, findCBAux_nil]
    | succ g' =>
      cases hso : splitOnSub fenceOpener content with
      | none => simp [findCBAux, hso]
      | some pr =>
        obtain ⟨pre, rest⟩ := pr
        cases hsc : splitOnSub fenceCloser rest with
        | none => simp [findCBAux, hso, hsc]
        | some qr =>
          obtain ⟨code, rest2⟩ := qr
          simp only [findCBAux, hso, hsc]
          have e1 := splitOnSub_some fenceOpener fenceOpener_ne content pre rest hso
          have e2 := splitOnSub_some fenceCloser fenceCloser_ne rest code rest2 hsc
          have lo : fenceOpener.length = 8 := by decide
          have lc : fenceCloser.length = 4 := by decide
          have l1 : content.length = pre.length + 8 + rest.length := by
            rw [e1]
            simp [List.length_append, lo]
            omega
          have l2 : rest.length = code.length + 4 + rest2.length := by
            rw [e2]
            simp [List.length_append, lc]
            omega
          congr 1
          exact ih g' rest2 (by omega) (by omega)

/-- No opener occurrence: no blocks. -/
theorem findCodeBlocks_none (content : List Char)
    (h : splitOnSub fenceOpener content = none) : findCodeBlocks content = [] := by
  unfold findCodeBlocks
  cases hl : content.length with
  | zero => rfl
  | succ n => simp [findCBAux, h]

/-- A dangling opener with no later closer: no blocks at all. -/
theorem findCodeBlocks_dangling (content pre rest : List Char)
    (h1 : splitOnSub fenceOpener content = some (pre, rest))
    (h2 : splitOnSub fenceCloser rest = none) : findCodeBlocks content = [] := by
  unfold findCodeBlocks
  cases hl : content.length with
  | zero =>
    have : content = [] := List.eq_nil_of_length_eq_zero hl
    subst this
    rfl
  | succ n => simp [findCBAux, h1, h2]

/-- One matched block followed by the scan of the remainder. -/
theorem findCodeBlocks_step (content pre rest code rest2 : List Char)
    (h1 : splitOnSub fenceOpener content = some (pre, rest))
    (h2 : splitOnSub fenceCloser rest = some (code, rest2)) :
    findCodeBlocks content = code :: findCodeBlocks rest2 := by
  have e1 := splitOnSub_some fenceOpener fenceOpener_ne content pre rest h1
  have e2 := splitOnSub_some fenceCloser fenceCloser_ne rest code rest2 h2
  have lo : fenceOpener.length = 8 := by decide
  have lc : fenceCloser.length = 4 := by decide
  have l1 : content.length = pre.length + 8 + rest.length := by
    rw [e1]
    simp [List.length_append, lo]
    omega
  have l2 : rest.length = code.length + 4 + rest2.length := by
    rw [e2]
    simp [List.length_append, lc]
    omega
  unfold findCodeBlocks
  cases hl : content.length with
  | zero => omega
  | succ n =>
    simp only [findCBAux, h1, h2]
    congr 1
    exact findCBAux_congr n rest2.length rest2 (by omega) le_rfl

/-- A positive skip counter just drops characters. -/
theorem replaceAux_skip (pat rep : List Char) :
    ∀ s k, replaceAux pat rep s k = replaceAux pat rep (s.drop k) 0 := by
  intro s
  induction s with
  | nil => intro k; cases k <;> rfl
  | cons c t ih =>
    intro k
    cases k with
    | zero => rfl
    | succ k => simpa [replaceAux] using ih k

/-- `replaceSub` on a matching position replaces and resumes after the match. -/
theorem replaceSub_pos (p : Char) (pt rep : List Char) (c : Char) (t : List Char)
    (h : leadsWith (p :: pt) (c :: t) = true) :
    replaceSub (p :: pt) rep (c :: t) = rep ++ replaceSub (p :: pt) rep (t.drop pt.length) := by
  unfold replaceSub
  simp only [replaceAux, if_pos h, List.length_cons, Nat.add_sub_cancel]
  rw [replaceAux_skip]

/-- `replaceSub` on a non-matching position keeps the character. -/
theorem replaceSub_neg (pat rep : List Char) (c : Char) (t : List Char)
    (h : leadsWith pat (c :: t) = false) :
    replaceSub pat rep (c :: t) = c :: replaceSub pat rep t := by
  unfold replaceSub
  simp only [replaceAux, h]
  simp

/-- When the pattern does not occur, `replaceSub` is the identity. -/
theorem replaceSub_id (pat rep : List Char) :
    ∀ s, containsSub pat s = false → replaceSub pat rep s = s := by
  intro s
  induction s with
  | nil => intro _; rfl
  | cons c t ih =>
    intro h
    simp only [containsSub, Bool.or_eq_false_iff] at h
    rw [replaceSub_neg pat rep c t h.1, ih h.2]

/-- A leading occurrence of `u` survives replacement of a pattern whose
head character does not occur in `u`. -/
theorem leadsWith_replace (p : Char) (pt rep : List Char) :
    ∀ u t, p ∉ u → leadsWith u t = true →
      leadsWith u (replaceSub (p :: pt) rep t) = true := by
  intro u
  induction u with
  | nil => intro t _ _; rfl
  | cons d u' ih =>
    intro t hp hl
    cases t with
    | nil => simp [leadsWith] at hl
    | cons e t' =>
      simp only [leadsWith, Bool.and_eq_true, beq_iff_eq] at hl
      obtain ⟨heq, hl'⟩ := hl
      subst heq
      have hnl : leadsWith (p :: pt) (d :: t') = false := by
        cases hx : leadsWith (p :: pt) (d :: t') with
        | false => rfl
        | true =>
          simp only [leadsWith, Bool.and_eq_true, beq_iff_eq] at hx
          exact absurd (by rw [hx.1]; exact List.mem_cons_self d u' : p ∈ d :: u') hp
      rw [replaceSub_neg _ _ _ _ hnl]
      have hihl := ih t' (fun hm => hp (List.mem_cons_of_mem _ hm)) hl'
      simp [leadsWith, hihl]

/-- The character of `l` at position `l₁.length` in `l₁ ++ x :: r` is `x`. -/
theorem getAt_append_mid (a : List Char) (x : Char) (r : List Char) :
    (a ++ x :: r)[a.length]? = some x := by
  induction a with
  | nil => simp
  | cons c a' ih => simpa using ih

/-- Positions below the left summand's length read from the left summand. -/
theorem getAt_append_lt (x y : List Char) :
    ∀ n, n < x.length → (x ++ y)[n]? = x[n]? := by
  induction x with
  | nil => intro n hn; simp at hn
  | cons c x' ih =>
    intro n hn
    cases n with
    | zero => simp
    | succ n =>
      simp only [List.cons_append, List.getElem?_cons_succ]
      exact ih n (by simpa using Nat.lt_of_succ_lt_succ hn)

/-- A successfully read element is a member. -/
theorem mem_of_getAt (x : Char) : ∀ (l : List Char) (n : Nat), l[n]? = some x → x ∈ l := by
  intro l
  induction l with
  | nil => intro n h; simp at h
  | cons c t ih =>
    intro n h
    cases n with
    | zero =>
      simp only [List.getElem?_cons_zero, Option.some.injEq] at h
      exact h ▸ List.mem_cons_self c t
    | succ n =>
      simp only [List.getElem?_cons_succ] at h
      exact List.mem_cons_of_mem c (ih n h)

/-- Splitting an append equation when the left part is at least as long. -/
theorem split_of_le : ∀ (x u y v : List Char), x ++ y = u ++ v → x.length ≤ u.length →
    ∃ w, u = x ++ w ∧ y = w ++ v := by
  intro x
  induction x with
  | nil =>
    intro u y v hx _
    exact ⟨u, rfl, by simpa using hx⟩
  | cons c x' ih =>
    intro u y v hx hl
    cases u with
    | nil => simp at hl
    | cons d u' =>
      rw [List.cons_append, List.cons_append] at hx
      injection hx with h1 h2
      obtain ⟨w, hu, hy⟩ := ih u' y v h2 (by simpa using Nat.le_of_succ_le_succ hl)
      exact ⟨w, by rw [h1, hu, List.cons_append], hy⟩

/-- Occurrences of a marker survive `replaceSub` when the marker's head
does not occur in the pattern and the pattern's head does not occur in
the marker. -/
theorem containsSub_replace (p : Char) (pt rep : List Char) (h : Char) (mt : List Char)
    (hp : h ∉ (p :: pt)) (hm : p ∉ (h :: mt)) :
    ∀ s, containsSub (h :: mt) s = true →
      containsSub (h :: mt) (replaceSub (p :: pt) rep s) = true := by
  suffices H : ∀ n s, s.length ≤ n → containsSub (h :: mt) s = true →
      containsSub (h :: mt) (replaceSub (p :: pt) rep s) = true by
    exact fun s => H s.length s le_rfl
  intro n
  induction n with
  | zero =>
    intro s hs hc
    have : s = [] := List.eq_nil_of_length_eq_zero (Nat.le_zero.mp hs)
    subst this
    simp [containsSub, leadsWith] at hc
  | succ n ih =>
    intro s hs hc
    cases s with
    | nil => simp [containsSub, leadsWith] at hc
    | cons c t =>
      by_cases hl : leadsWith (p :: pt) (c :: t) = true
      · obtain ⟨w, hw⟩ := (leadsWith_iff (p :: pt) (c :: t)).mp hl
        obtain ⟨a, b, hab⟩ := (containsSub_iff (h :: mt) (c :: t)).mp hc
        have hablen : (p :: pt).length ≤ a.length := by
          by_contra hlt
          push_neg at hlt
          have e1 : (c :: t)[a.length]? = some h := by
            rw [hab]
            have : a ++ (h :: mt) ++ b = a ++ h :: (mt ++ b) := by simp
            rw [this]
            exact getAt_append_mid a h (mt ++ b)
          have e2 : (c :: t)[a.length]? = (p :: pt)[a.length]? := by
            rw [hw]
            exact getAt_append_lt (p :: pt) w a.length hlt
          exact hp (mem_of_getAt h (p :: pt) a.length (by rw [← e2, e1]))
        have hsplit : (p :: pt) ++ w = a ++ ((h :: mt) ++ b) := by
          rw [← hw, hab]
          simp
        obtain ⟨a', ha, hwa⟩ := split_of_le (p :: pt) a w ((h :: mt) ++ b) hsplit hablen
        have hcw : containsSub (h :: mt) w = true :=
          (containsSub_iff (h :: mt) w).mpr ⟨a', b, by rw [hwa]; simp⟩
        have htw : t.drop pt.length = w := by
          rw [List.cons_append] at hw
          injection hw with hc1 ht1
          rw [ht1]
          exact drop_len_append pt w
        have hwlen : w.length ≤ n := by
          have h1 : t.length ≤ n := by simpa using Nat.le_of_succ_le_succ hs
          have h2 : w.length ≤ t.length := by
            rw [← htw, List.length_drop]
            omega
          omega
        have hrec := ih w hwlen hcw
        rw [replaceSub_pos p pt rep c t hl, htw]
        exact containsSub_append_left (h :: mt) rep _ hrec
      · have hl' : leadsWith (p :: pt) (c :: t) = false := by
          cases hx : leadsWith (p :: pt) (c :: t) with
          | false => rfl
          | true => exact absurd hx hl
        rw [replaceSub_neg _ _ _ _ hl']
        have hc' : leadsWith (h :: mt) (c :: t) = true ∨ containsSub (h :: mt) t = true := by
          simpa [containsSub, Bool.or_eq_true] using hc
        rcases hc' with hx | hx
        · simp only [leadsWith, Bool.and_eq_true, beq_iff_eq] at hx
          obtain ⟨hch, hlm⟩ := hx
          subst hch
          have hlm' : leadsWith mt (replaceSub (p :: pt) rep t) = true :=
            leadsWith_replace p pt rep mt t (fun hmem => hm (List.mem_cons_of_mem _ hmem)) hlm
          simp [containsSub, leadsWith, hlm']
        · exact containsSub_cons_of (h :: mt) c _
            (ih t (by simpa using Nat.le_of_succ_le_succ hs) hx)

/-- A pattern without newlines cannot lead across a newline. -/
theorem leadsWith_stop : ∀ (m : List Char), '\n' ∉ m →
    ∀ a b, leadsWith m (a ++ '\n' :: b) = leadsWith m a := by
  intro m
  induction m with
  | nil => intro _ a b; rfl
  | cons x m' ih =>
    intro hnl a b
    cases a with
    | nil =>
      have hx : x ≠ '\n' := fun he => hnl (by rw [he]; exact List.mem_cons_self '\n' m')
      simp [leadsWith, hx]
    | cons c a' =>
      simp only [List.cons_append, leadsWith, List.append_eq]
      rw [ih (fun hm => hnl (List.mem_cons_of_mem _ hm)) a' b]

/-- Occurrence counting for a newline-free pattern splits at a newline. -/
theorem countSub_split (h : Char) (mt : List Char) (hnl : '\n' ∉ (h :: mt)) :
    ∀ a b, countSub (h :: mt) (a ++ '\n' :: b) =
      countSub (h :: mt) a + countSub (h :: mt) b := by
  intro a b
  induction a with
  | nil =>
    have h1 : leadsWith (h :: mt) ('\n' :: b) = false := by
      have h2 := leadsWith_stop (h :: mt) hnl [] b
      rw [List.nil_append] at h2
      rw [h2]
      rfl
    simp [countSub, h1, show leadsWith (h :: mt) [] = false from rfl]
  | cons c a' ih =>
    have hsw : leadsWith (h :: mt) ((c :: a') ++ '\n' :: b) = leadsWith (h :: mt) (c :: a') :=
      leadsWith_stop (h :: mt) hnl (c :: a') b
    rw [List.cons_append] at hsw
    simp only [List.cons_append, countSub, hsw, ih, List.append_eq]
    omega

/-- A pattern that does not occur has occurrence count zero. -/
theorem countSub_zero (pat : List Char) :
    ∀ s, containsSub pat s = false → countSub pat s = 0 := by
  intro s
  induction s with
  | nil =>
    intro h
    simp only [containsSub] at h
    simp [countSub, h]
  | cons c t ih =>
    intro h
    simp only [containsSub, Bool.or_eq_false_iff] at h
    simp [countSub, h.1, ih h.2]

/-- Members of `enumFrom n` have index at least `n`. -/
theorem mem_enumFrom_ge {α : Type} : ∀ (l : List α) (n i : Nat) (a : α),
    (i, a) ∈ l.enumFrom n → n ≤ i := by
  intro l
  induction l with
  | nil => intro n i a h; simp [List.enumFrom] at h
  | cons c t ih =>
    intro n i a h
    simp only [List.enumFrom, List.mem_cons] at h
    rcases h with h | h
    · rw [Prod.mk.injEq] at h
      omega
    · exact Nat.le_of_succ_le (ih (n + 1) i a h)

/-- A member `(i, a)` of `enumFrom n` reads `a` at position `i - n`. -/
theorem mem_enumFrom_get {α : Type} : ∀ (l : List α) (n i : Nat) (a : α),
    (i, a) ∈ l.enumFrom n → l[i - n]? = some a := by
  intro l
  induction l with
  | nil => intro n i a h; simp [List.enumFrom] at h
  | cons c t ih =>
    intro n i a h
    simp only [List.enumFrom, List.mem_cons] at h
    rcases h with h | h
    · rw [Prod.mk.injEq] at h
      obtain ⟨h1, h2⟩ := h
      subst h1
      subst h2
      simp
    · have hge := mem_enumFrom_ge t (n + 1) i a h
      have hrec := ih (n + 1) i a h
      have hin : i - n = (i - (n + 1)) + 1 := by omega
      rw [hin, List.getElem?_cons_succ]
      exact hrec

/-- A member `(i, a)` of `l.enum` reads `a` at position `i` of `l`. -/
theorem mem_enum_get {α : Type} (l : List α) (i : Nat) (a : α)
    (h : (i, a) ∈ l.enum) : l[i]? = some a := by
  have := mem_enumFrom_get l 0 i a h
  simpa using this

/-- Claim C1, amended: a block begins at the first occurrence of the
opener string (three backticks, the language tag and a line break: text
may precede the opener on its line) and its raw text runs to the first
following occurrence of the closer (a line break followed by three
backticks: text may follow the closer on its line), exclusive of both
delimiters and including interior blank lines; the first closer
terminates the block, a dangling opener with no closer yields no block,
the scan resumes after each closer so blocks come in document order, and
each kept block's 0-based ordinal indexes the full match list. -/
theorem C1_block_extraction (content : List Char) :
    (containsSub fenceOpener content = false → findCodeBlocks content = []) ∧
    (∀ a r, content = a ++ fenceOpener ++ r →
      (∀ i, i < a.length → leadsWith fenceOpener (content.drop i) = false) →
      ((containsSub fenceCloser r = false → findCodeBlocks content = []) ∧
       (∀ code r2, r = code ++ fenceCloser ++ r2 →
         (∀ j, j < code.length → leadsWith fenceCloser (r.drop j) = false) →
         findCodeBlocks content = code :: findCodeBlocks r2))) ∧
    (∀ i code, (i, code) ∈ extract_rust_code_blocks content →
      (findCodeBlocks content)[i]? = some code) := by
  refine ⟨?_, ?_, ?_⟩
  · intro h
    exact findCodeBlocks_none content
      ((splitOnSub_none_iff fenceOpener fenceOpener_ne content).mpr h)
  · intro a r hdec hmin
    have hso : splitOnSub fenceOpener content = some (a, r) :=
      splitOnSub_first fenceOpener fenceOpener_ne a content r hdec hmin
    constructor
    · intro hnc
      exact findCodeBlocks_dangling content a r hso
        ((splitOnSub_none_iff fenceCloser fenceCloser_ne r).mpr hnc)
    · intro code r2 hdec2 hmin2
      have hsc : splitOnSub fenceCloser r = some (code, r2) :=
        splitOnSub_first fenceCloser fenceCloser_ne code r r2 hdec2 hmin2
      exact findCodeBlocks_step content a r code r2 hso hsc
  · intro i code hmem
    simp only [extract_rust_code_blocks] at hmem
    exact mem_enum_get _ i code (List.mem_filter.mp hmem).1

/-- Witness for C1: a document whose single block has interior blank
lines, extracted through the amended characterization. -/
theorem C1_block_extraction_witness :
    findCodeBlocks ("```rust\n\nlet x = 1;\n\n```".data) = ["\nlet x = 1;\n".data] := by
  have h := ((C1_block_extraction ("```rust\n\nlet x = 1;\n\n```".data)).2.1
      [] ("\nlet x = 1;\n\n```".data) (by decide)
      (fun i hi => absurd hi (Nat.not_lt_zero i))).2
      ("\nlet x = 1;\n".data) [] (by decide) (by decide)
  exact h

/-- Counterexample to C1 as stated: the document has no line consisting
only of the fence opener, yet a block is extracted, because the regex
accepts an opener preceded by other text on its line. -/
theorem C1_counterexample :
    findCodeBlocks ("x```rust\nhello\n```".data) = ["hello".data] ∧
    ¬ ("```rust".data ∈ splitLines ("x```rust\nhello\n```".data)) := by
  exact ⟨by decide, by decide⟩

/-- Claim C2 (confirmed): a matched block is kept exactly when its raw
text contains one of the three relevance fragments, and the filter is a
total boolean predicate equal to that three-way disjunction. -/
theorem C2_relevance_filter (content : List Char) (i : Nat) (code : List Char) :
    ((i, code) ∈ extract_rust_code_blocks content ↔
      ((i, code) ∈ (findCodeBlocks content).enum ∧ isRelevantBlock code = true)) ∧
    (isRelevantBlock code = true ↔
      (containsSub asyncMainSig code = true ∨ containsSub sdkImportSig code = true ∨
       containsSub tokioMainSig code = true)) := by
  constructor
  · simp only [extract_rust_code_blocks, List.mem_filter]
  · simp [isRelevantBlock, relevantFragments]

/-- The sync entry marker survives the namespace rewrite. -/
theorem fnMain_survives_rewrite (s : List Char) (hs : containsSub fnMainSig s = true) :
    containsSub fnMainSig (replaceSub sdkNs crateNs s) = true := by
  have e1 : sdkNs = 'u' :: "se claude_sdk_rs::".data := by decide
  have e2 : fnMainSig = 'f' :: "n main()".data := by decide
  rw [e2] at hs
  rw [e1, e2]
  exact containsSub_replace 'u' ("se claude_sdk_rs::".data) crateNs
    'f' ("n main()".data) (by decide) (by decide) s hs

/-- The async entry marker survives the namespace rewrite. -/
theorem tokioMain_survives_rewrite (s : List Char) (hs : containsSub tokioMainSig s = true) :
    containsSub tokioMainSig (replaceSub sdkNs crateNs s) = true := by
  have e1 : sdkNs = 'u' :: "se claude_sdk_rs::".data := by decide
  have e3 : tokioMainSig = '#' :: "[tokio::main]".data := by decide
  rw [e3] at hs
  rw [e1, e3]
  exact containsSub_replace 'u' ("se claude_sdk_rs::".data) crateNs
    '#' ("[tokio::main]".data) (by decide) (by decide) s hs

/-- Claim C3 (confirmed): a block already containing a full entry marker
is passed through: the full-compile synthesizer returns it verbatim, the
syntax synthesizer returns exactly the namespace-rewritten text, and the
entry marker is still present in the syntax synthesizer's output. -/
theorem C3_passthrough (code : List Char)
    (h : containsSub fnMainSig code = true ∨ containsSub tokioMainSig code = true) :
    make_code_testable_full code = code ∧
    make_code_testable_syntax_mode code = replaceSub sdkNs crateNs code ∧
    (containsSub fnMainSig code = true →
      containsSub fnMainSig (make_code_testable_syntax_mode code) = true) ∧
    (containsSub tokioMainSig code = true →
      containsSub tokioMainSig (make_code_testable_syntax_mode code) = true) := by
  have hcondf : (containsSub tokioMainSig code || containsSub fnMainSig code) = true := by
    rcases h with hf | ht
    · simp [hf]
    · simp [ht]
  have hconds : (containsSub tokioMainSig (replaceSub sdkNs crateNs code) ||
      containsSub fnMainSig (replaceSub sdkNs crateNs code)) = true := by
    rcases h with hf | ht
    · simp [fnMain_survives_rewrite code hf]
    · simp [tokioMain_survives_rewrite code ht]
  have hfull : make_code_testable_full code = code := by
    simp only [make_code_testable_full, if_pos hcondf]
  have hsyn : make_code_testable_syntax_mode code = replaceSub sdkNs crateNs code := by
    simp only [make_code_testable_syntax_mode, if_pos hconds]
  refine ⟨hfull, hsyn, ?_, ?_⟩
  · intro hf
    rw [hsyn]
    exact fnMain_survives_rewrite code hf
  · intro ht
    rw [hsyn]
    exact tokioMain_survives_rewrite code ht

/-- Witness for C3: a complete async program block is returned verbatim
by the full-compile synthesizer and keeps its marker in the syntax one. -/
theorem C3_passthrough_witness :
    make_code_testable_full ("#[tokio::main]\nasync fn main() -> Result<(), Box<dyn std::error::Error>> \x7b\n    Ok(())\n\x7d".data) = "#[tokio::main]\nasync fn main() -> Result<(), Box<dyn std::error::Error>> \x7b\n    Ok(())\n\x7d".data ∧
    containsSub tokioMainSig (make_code_testable_syntax_mode ("#[tokio::main]\nasync fn main() -> Result<(), Box<dyn std::error::Error>> \x7b\n    Ok(())\n\x7d".data)) = true := by
  refine ⟨(C3_passthrough _ (Or.inr (by decide))).1, ?_⟩
  exact (C3_passthrough _ (Or.inr (by decide))).2.2.2 (by decide)

/-- The empty text has occurrence count zero for a nonempty pattern. -/
theorem countSub_nil_cons (h : Char) (mt : List Char) : countSub (h :: mt) [] = 0 := by
  simp [countSub, show leadsWith (h :: mt) [] = false from rfl]

/-- Counting a marker in a wrapped harness: absent from the wrapped text
and occurring once in the appended tail gives exactly one occurrence. -/
theorem countSub_wrap_one (h : Char) (mt x dtl : List Char)
    (hnl : '\n' ∉ (h :: mt))
    (hx : containsSub (h :: mt) x = false)
    (hdtl : countSub (h :: mt) dtl = 1) :
    countSub (h :: mt) ('\n' :: (x ++ '\n' :: dtl)) = 1 := by
  have h1 := countSub_split h mt hnl [] (x ++ '\n' :: dtl)
  simp only [List.nil_append] at h1
  have h2 := countSub_split h mt hnl x dtl
  rw [h1, h2, countSub_nil_cons, countSub_zero _ x hx, hdtl]

/-- The declaration tail split at its leading newline. -/
theorem declTail_cons : declTail = '\n' :: "\n#[tokio::main]\nasync fn main() -> Result<(), Box<dyn std::error::Error>> \x7b\n    println!(\"Code compiles successfully!\");\n    Ok(())\n\x7d\n".data := by
  decide

set_option maxRecDepth 16384 in
/-- Claim C4, amended: a declaration-only block (no entry marker and no
defining construct) is wrapped so that the harness contains exactly one
entry point, and the wrapped text appears verbatim as a contiguous
substring — where for the full-compile script the wrapped text is the
original block text, while for the syntax script it is the block text
after the namespace rewrite (the original is not preserved verbatim when
it mentions the published namespace). -/
theorem C4_declaration_wrap (code : List Char) :
    (containsSub tokioMainSig code = false →
     containsSub fnMainSig code = false →
     containsSub asyncFnSig code = false →
     containsSub fnSpace code = false →
     containsSub implSpace code = false →
     containsSub structSpace code = false →
     (make_code_testable_full code = '\n' :: (code ++ declTail) ∧
      containsSub code (make_code_testable_full code) = true ∧
      countSub fnMainSig (make_code_testable_full code) = 1 ∧
      countSub tokioMainSig (make_code_testable_full code) = 1)) ∧
    (∀ c, c = replaceSub sdkNs crateNs code →
     containsSub tokioMainSig c = false →
     containsSub fnMainSig c = false →
     containsSub asyncFnSig c = false →
     containsSub fnSpace c = false →
     containsSub implSpace c = false →
     containsSub structSpace c = false →
     (make_code_testable_syntax_mode code = '\n' :: (c ++ declTail) ∧
      containsSub c (make_code_testable_syntax_mode code) = true ∧
      countSub fnMainSig (make_code_testable_syntax_mode code) = 1 ∧
      countSub tokioMainSig (make_code_testable_syntax_mode code) = 1)) := by
  have efm : fnMainSig = 'f' :: "n main()".data := by decide
  have etm : tokioMainSig = '#' :: "[tokio::main]".data := by decide
  constructor
  · intro h1 h2 h3 h4 h5 _h6
    have hout : make_code_testable_full code = '\n' :: (code ++ declTail) := by
      simp [make_code_testable_full, h1, h2, h3, h4, h5]
    refine ⟨hout, ?_, ?_, ?_⟩
    · rw [hout]
      exact containsSub_here code '\n' declTail
    · rw [hout, declTail_cons, efm]
      rw [efm] at h2
      exact countSub_wrap_one 'f' ("n main()".data) code _ (by decide) h2 (by decide)
    · rw [hout, declTail_cons, etm]
      rw [etm] at h1
      exact countSub_wrap_one '#' ("[tokio::main]".data) code _ (by decide) h1 (by decide)
  · intro c hc h1 h2 h3 h4 h5 h6
    subst hc
    have hout : make_code_testable_syntax_mode code =
        '\n' :: (replaceSub sdkNs crateNs code ++ declTail) := by
      simp [make_code_testable_syntax_mode, h1, h2, h3, h4, h5, h6]
    refine ⟨hout, ?_, ?_, ?_⟩
    · rw [hout]
      exact containsSub_here _ '\n' declTail
    · rw [hout, declTail_cons, efm]
      rw [efm] at h2
      exact countSub_wrap_one 'f' ("n main()".data) _ _ (by decide) h2 (by decide)
    · rw [hout, declTail_cons, etm]
      rw [etm] at h1
      exact countSub_wrap_one '#' ("[tokio::main]".data) _ _ (by decide) h1 (by decide)

/-- Witness for C4: a pure statement block is wrapped with one entry
point by both synthesizers. -/
theorem C4_declaration_wrap_witness :
    make_code_testable_full ("let x = 5;".data) = '\n' :: ("let x = 5;".data ++ declTail) ∧
    countSub fnMainSig (make_code_testable_syntax_mode ("let x = 5;".data)) = 1 := by
  refine ⟨((C4_declaration_wrap ("let x = 5;".data)).1
    (by decide) (by decide) (by decide) (by decide) (by decide) (by decide)).1, ?_⟩
  exact ((C4_declaration_wrap ("let x = 5;".data)).2 ("let x = 5;".data)
    (by decide) (by decide) (by decide) (by decide) (by decide) (by decide) (by decide)).2.2.1

/-- Counterexample to C4 as stated: a declaration-only block mentioning
the published namespace satisfies every hypothesis of the claim, yet its
original text does not appear verbatim in the syntax script's harness,
because the namespace rewrite alters it. -/
theorem C4_counterexample :
    containsSub tokioMainSig sdkOnlyBlock = false ∧
    containsSub fnMainSig sdkOnlyBlock = false ∧
    containsSub asyncFnSig sdkOnlyBlock = false ∧
    containsSub fnSpace sdkOnlyBlock = false ∧
    containsSub implSpace sdkOnlyBlock = false ∧
    containsSub structSpace sdkOnlyBlock = false ∧
    containsSub sdkOnlyBlock (make_code_testable_syntax_mode sdkOnlyBlock) = false := by
  decide

/-- Claim C9, amended: extraction and relevance filtering are identical in
the two modes, but harness synthesis is not — the syntax script rewrites
the published namespace and also treats a struct definition as a defining
construct, while the full-compile script does neither; on block texts
containing neither the namespace reference nor a struct keyword the two
synthesizers agree. -/
theorem C9_mode_equivalence (code : List Char)
    (h1 : containsSub sdkNs code = false)
    (h2 : containsSub structSpace code = false) :
    (∀ content, extract_rust_code_blocks content = extract_rust_code_blocks_full content) ∧
    make_code_testable_syntax_mode code = make_code_testable_full code := by
  constructor
  · intro content
    rfl
  · have hrep : replaceSub sdkNs crateNs code = code := replaceSub_id sdkNs crateNs code h1
    simp [make_code_testable_syntax_mode, make_code_testable_full, hrep, h2]

/-- Witness for C9: on a plain statement block the two synthesizers agree. -/
theorem C9_mode_equivalence_witness :
    make_code_testable_syntax_mode ("let y = 2;".data) = make_code_testable_full ("let y = 2;".data) :=
  (C9_mode_equivalence ("let y = 2;".data) (by decide) (by decide)).2

/-- Counterexample to C9 as stated: on a block referencing the published
namespace the two synthesizers produce different harnesses, because only
the syntax script performs the namespace rewrite. -/
theorem C9_counterexample :
    make_code_testable_syntax_mode sdkOnlyBlock ≠ make_code_testable_full sdkOnlyBlock := by
  decide

/-- Claim C5 (confirmed): exit status zero yields passed with diagnostic
OK; nonzero exit yields failed with the captured error stream; a timeout
yields failed with the fixed per-mode message, with bounds 15 and 30
seconds; a failure to start yields failed with the error's description. -/
theorem C5_verifier_outcomes (rc : Int) (outp errp e : List Char) (hrc : ¬ rc = 0) :
    check_syntax_block BuildResult.ok (ProcResult.completed 0 outp errp) = Except.ok (true, "OK".data) ∧
    test_code_block BuildResult.ok (ProcResult.completed 0 outp errp) = Except.ok (true, "OK".data) ∧
    check_syntax_block BuildResult.ok (ProcResult.completed rc outp errp) = Except.ok (false, errp) ∧
    test_code_block BuildResult.ok (ProcResult.completed rc outp errp) = Except.ok (false, errp) ∧
    check_syntax_block BuildResult.ok ProcResult.timeout = Except.ok (false, "Syntax check timeout".data) ∧
    test_code_block BuildResult.ok ProcResult.timeout = Except.ok (false, "Compilation timeout".data) ∧
    check_syntax_block BuildResult.ok (ProcResult.startError e) = Except.ok (false, "Error: ".data ++ e) ∧
    test_code_block BuildResult.ok (ProcResult.startError e) = Except.ok (false, "Error: ".data ++ e) ∧
    check_syntax_timeout_secs = 15 ∧
    test_code_block_timeout_secs = 30 := by
  have hbeq : (rc == 0) = false := beq_eq_false_iff_ne.mpr hrc
  refine ⟨rfl, rfl, ?_, ?_, rfl, rfl, rfl, rfl, rfl, rfl⟩
  · simp [check_syntax_block, check_syntax_verdict, hbeq]
  · simp [test_code_block, test_code_block_verdict, hbeq]

/-- Witness for C5: the nonzero-exit case at exit status one. -/
theorem C5_verifier_outcomes_witness :
    check_syntax_block BuildResult.ok (ProcResult.completed 1 [] ("bad".data)) =
      Except.ok (false, "bad".data) :=
  (C5_verifier_outcomes 1 [] ("bad".data) [] (by decide)).2.2.1

/-- Every block of a list whose sandbox builds succeed folds into the
conjunction of the per-block verdicts. -/
theorem runBlocks_ok (env : List (BuildResult × ProcResult))
    (hb : ∀ br ∈ env, br.1 = BuildResult.ok) :
    runBlocks check_syntax_block env =
      Except.ok (env.all fun br => (check_syntax_verdict br.2).1) := by
  induction env with
  | nil => rfl
  | cons br rest ih =>
    obtain ⟨b, r⟩ := br
    have hb1 : b = BuildResult.ok := hb (b, r) (List.mem_cons_self _ _)
    subst hb1
    have ihh := ih (fun x hx => hb x (List.mem_cons_of_mem _ hx))
    simp [runBlocks, check_syntax_block, ihh, List.all_cons]

/-- Folding `all` through a map. -/
theorem all_map_comp {α β : Type} (l : List α) (f : α → β) (g : β → Bool) :
    (l.map f).all g = l.all fun x => g (f x) := by
  induction l with
  | nil => rfl
  | cons c t ih => simp [List.map_cons, List.all_cons, ih]

/-- With successful sandbox builds, a file check returns exactly the
document-pass verdict. -/
theorem check_tutorial_file_ok (oracle : Nat → BuildResult × ProcResult) (content : List Char)
    (hb : ∀ bi, (oracle bi).1 = BuildResult.ok) :
    check_tutorial_file oracle content = Except.ok (docPasses oracle content) := by
  unfold check_tutorial_file docPasses blockPasses
  rw [runBlocks_ok _ ?_]
  · rw [all_map_comp]
  · intro br hbr
    obtain ⟨p, _, rfl⟩ := List.mem_map.mp hbr
    exact hb p.1

/-- With successful sandbox builds, the document loop folds into the
conjunction of the per-document verdicts. -/
theorem runDocs_ok (oracle : Nat → Nat → BuildResult × ProcResult)
    (l : List (Nat × List Char))
    (hb : ∀ di bi, (oracle di bi).1 = BuildResult.ok) :
    runDocs oracle l = Except.ok (l.all fun p => docPasses (oracle p.1) p.2) := by
  induction l with
  | nil => rfl
  | cons p rest ih =>
    obtain ⟨di, content⟩ := p
    simp [runDocs, check_tutorial_file_ok (oracle di) content (hb di), ih, List.all_cons]

/-- Claim C6 (confirmed): with no internal errors, a document passes iff
every relevant block passes (zero relevant blocks passes trivially), the
run passes iff every document passes, the exit code is 0 exactly when the
run passes and 1 otherwise, and a missing root exits 1 regardless of any
document or verifier behavior, without extraction. -/
theorem C6_two_level_success (docs : List (List Char))
    (oracle : Nat → Nat → BuildResult × ProcResult) :
    (tutorialMain false docs oracle = Except.ok 1) ∧
    ((∀ di bi, (oracle di bi).1 = BuildResult.ok) → docs ≠ [] →
      tutorialMain true docs oracle =
        Except.ok (if docs.enum.all (fun p => docPasses (oracle p.1) p.2) then 0 else 1)) ∧
    (∀ o content, extract_rust_code_blocks content = [] → docPasses o content = true) := by
  refine ⟨rfl, ?_, ?_⟩
  · intro hb hne
    have hisEmpty : docs.isEmpty = false := by
      cases docs with
      | nil => exact absurd rfl hne
      | cons _ _ => rfl
    simp only [tutorialMain, if_neg (by simp : ¬ true = false), hisEmpty,
      Bool.false_eq_true, if_false, runDocs_ok oracle docs.enum hb, Except.map]
  · intro o content hc
    simp [docPasses, hc]

/-- Witness for C6: one document with one passing relevant block exits 0. -/
theorem C6_two_level_success_witness :
    tutorialMain true ["```rust\n#[tokio::main]\n```".data]
      (fun _ _ => (BuildResult.ok, ProcResult.completed 0 [] [])) = Except.ok 0 := by
  have h := (C6_two_level_success ["```rust\n#[tokio::main]\n```".data]
      (fun _ _ => (BuildResult.ok, ProcResult.completed 0 [] []))).2.1
      (fun _ _ => rfl) (by simp)
  rw [h, if_pos (by decide)]

/-- Claim C7, amended: the single block of scenario A lacks all three
relevance signals, so the pipeline filters it out, performs no
verification, and the document passes trivially; the synthesizer applied
directly to this text would classify it as definitions-only and append
an entry point. -/
theorem C7_scenarioA (oracle : Nat → BuildResult × ProcResult) :
    isRelevantBlock ("fn helper() \x7b\x7d".data) = false ∧
    extract_rust_code_blocks scenarioADoc = [] ∧
    check_tutorial_file oracle scenarioADoc = Except.ok true ∧
    make_code_testable_syntax_mode ("fn helper() \x7b\x7d".data) =
      '\n' :: ("fn helper() \x7b\x7d".data ++ funcTail) := by
  refine ⟨by decide, by decide, ?_, by decide⟩
  have he : extract_rust_code_blocks scenarioADoc = [] := by decide
  simp [check_tutorial_file, he, runBlocks]

/-- Counterexample to C7 as stated: the scenario block contains none of
the three relevance signals and the pipeline extracts no block from the
scenario document, so no harness is synthesized and no verification
outcome is produced for it. -/
theorem C7_counterexample :
    containsSub asyncMainSig ("fn helper() \x7b\x7d".data) = false ∧
    containsSub sdkImportSig ("fn helper() \x7b\x7d".data) = false ∧
    containsSub tokioMainSig ("fn helper() \x7b\x7d".data) = false ∧
    extract_rust_code_blocks scenarioADoc = [] := by
  decide

/-- Claim C8, amended: an error raised by the verifier invocation itself
(such as a failure to start the toolchain) is caught per-block, recorded
as a failure with the error's description, and processing continues; but
an error while building the sandbox is not caught — it propagates out of
the per-block check and aborts the file's processing. -/
theorem C8_error_isolation (e msg : List Char) (r : ProcResult)
    (rest : List (BuildResult × ProcResult)) (b : Bool)
    (hrest : runBlocks check_syntax_block rest = Except.ok b) :
    check_syntax_block (BuildResult.err e) r = Except.error e ∧
    test_code_block (BuildResult.err e) r = Except.error e ∧
    runBlocks check_syntax_block ((BuildResult.err e, r) :: rest) = Except.error e ∧
    check_syntax_block BuildResult.ok (ProcResult.startError msg) =
      Except.ok (false, "Error: ".data ++ msg) ∧
    runBlocks check_syntax_block ((BuildResult.ok, ProcResult.startError msg) :: rest) =
      Except.ok false := by
  refine ⟨rfl, rfl, by simp [runBlocks, check_syntax_block], rfl, ?_⟩
  simp [runBlocks, check_syntax_block, check_syntax_verdict, hrest]

/-- Witness for C8: a caught invocation error records a failure and the
following block is still processed. -/
theorem C8_error_isolation_witness :
    runBlocks check_syntax_block [(BuildResult.ok, ProcResult.startError ("no cargo".data)),
      (BuildResult.ok, ProcResult.completed 0 [] [])] = Except.ok false :=
  (C8_error_isolation ("x".data) ("no cargo".data) ProcResult.timeout
    [(BuildResult.ok, ProcResult.completed 0 [] [])] true rfl).2.2.2.2

/-- Counterexample to C8 as stated: a sandbox build failure on the first
block is not recorded as a per-block failure — the whole file check (and
the run) aborts with the raised error, and the second block is never
processed. -/
theorem C8_counterexample :
    runBlocks check_syntax_block
      [(BuildResult.err ("Permission denied".data), ProcResult.completed 0 [] []),
       (BuildResult.ok, ProcResult.completed 0 [] [])] =
      Except.error ("Permission denied".data) ∧
    tutorialMain true ["```rust\n#[tokio::main]\n```".data]
      (fun _ _ => (BuildResult.err ("Permission denied".data), ProcResult.completed 0 [] [])) =
      Except.error ("Permission denied".data) := by
  exact ⟨rfl, rfl⟩

/-- Claim C10 (confirmed): a run over an existing root with zero matching
documents exits 1, not 0. -/
theorem C10_empty_glob (oracle : Nat → Nat → BuildResult × ProcResult) :
    tutorialMain true [] oracle = Except.ok 1 := rfl

end Ryht
